import Mathlib

/-!
Shallow embedding of the BWSI design-challenge firmware tools.

The encoder side models `protect_firmware` from `tools/fw_protect` (chunk
splitting, PKCS#7 padding, the packed 8-byte chunk header, and the
per-chunk AEAD sealing), and the transfer side models `send_metadata`,
`send_frame` and `main` from `tools/fw_update` (handshake, metadata phase,
frame phase, and the chunk-boundary re-derivation from the bundle bytes).
The AES-GCM primitive itself lives in an external library, so the AEAD
transform is modelled from the specification's seal/open contract; all
other definitions are translated from the repository's source.

Bytes are `Nat` values; byte strings are `List Nat`.
-/

/-- Read two bytes little-endian as an unsigned 16-bit value, mirroring
`struct.unpack('<H', bs[off:off+2])`. Out-of-range reads yield the byte 0,
matching no valid use in the source (valid bundles are long enough). -/
def readU16LE (bs : List Nat) (off : Nat) : Nat :=
  bs.getD off 0 + 256 * bs.getD (off + 1) 0

/-- Read two bytes little-endian as a signed 16-bit value, mirroring
`struct.unpack('<h', bs[off:off+2])`. -/
def readInt16LE (bs : List Nat) (off : Nat) : Int :=
  if 32768 ≤ readU16LE bs off then (readU16LE bs off : Int) - 65536
  else (readU16LE bs off : Int)

/-- Two's-complement little-endian encoding of a signed 16-bit value, as
laid down by `struct.pack('<h', v)` for `v` in range. -/
def int16LE (v : Int) : List Nat :=
  [((v + 65536) % 65536).toNat % 256, ((v + 65536) % 65536).toNat / 256]

/-- Range check performed by `struct.pack('<h', v)`: values outside a
signed 16-bit integer raise `struct.error`. -/
def fitsInt16 (v : Int) : Bool :=
  decide (-32768 ≤ v) && decide (v ≤ 32767)

/-- Model of `struct.pack('<hhhh', padded_length, version, total_plain_size,
chunk_index)` as used to build each chunk's 8-byte metadata header: `none`
models the `struct.error` raised when any field is out of range. -/
def pack_header (plen version total idx : Int) : Option (List Nat) :=
  if fitsInt16 plen && fitsInt16 version && fitsInt16 total && fitsInt16 idx then
    some (int16LE plen ++ int16LE version ++ int16LE total ++ int16LE idx)
  else none

/-- Chunk payload size constant from `protect_firmware` (`CHUNK_SIZE = 1000`). -/
def CHUNK_SIZE : Nat := 1000

/-- AES block alignment constant from `protect_firmware` (`BLOCK_SIZE = 16`). -/
def BLOCK_SIZE : Nat := 16

/-- PKCS#7 padding as performed by `Crypto.Util.Padding.pad(data, bs)`:
append `bs - len(data) % bs` bytes (always between 1 and `bs`), each equal
to the number of bytes appended. -/
def pad (data : List Nat) (bs : Nat) : List Nat :=
  data ++ List.replicate (bs - data.length % bs) (bs - data.length % bs)

/-- Modelled from the spec: PKCS#7 unpadding (the reverse of `pad`, which the
repository performs through the external `Crypto.Util.Padding` module). The
last byte gives the pad length `p`; the input is rejected unless `1 ≤ p ≤ 16`,
the input is at least `p` long and its last `p` bytes all equal `p`. -/
def unpad (bs : List Nat) : Option (List Nat) :=
  match bs.getLast? with
  | none => none
  | some p =>
    if p = 0 ∨ 16 < p ∨ bs.length < p then none
    else if (bs.drop (bs.length - p)).all (fun b => b == p) then
      some (bs.take (bs.length - p))
    else none

/-- Modelled from the spec: the AEAD keystream abstraction. The spec describes
a counter-mode authenticated stream cipher keyed by the 16-byte key and the
16-byte per-chunk nonce; the concrete AES block function is external to the
repository, so an abstract byte stream determined by `(key, nonce, position)`
stands in for it. -/
def keystream (key nonce : List Nat) (n : Nat) : List Nat :=
  (List.range n).map fun i => (key.sum + nonce.sum + i) % 256

/-- Modelled from the spec: AEAD encryption of the padded plaintext
(`cipher.encrypt`): ciphertext has the same length as the plaintext and is
the plaintext combined position-wise with the keystream. -/
def gcmEncrypt (key nonce ptxt : List Nat) : List Nat :=
  ptxt.zipWith (fun a b => a ^^^ b) (keystream key nonce ptxt.length)

/-- Modelled from the spec: AEAD decryption (`cipher.decrypt`), the inverse
keystream combination. -/
def gcmDecrypt (key nonce ct : List Nat) : List Nat :=
  ct.zipWith (fun a b => a ^^^ b) (keystream key nonce ct.length)

/-- Modelled from the spec: the 16-byte authentication tag produced by
`encrypt_and_digest` over the associated data (the 8-byte header) and the
ciphertext. The spec's contract is that the tag is a function of
`(key, header, nonce, ciphertext)` under which any single-bit change to
header, nonce or ciphertext changes the tag; the first tag byte is a
checksum of all four components, which has exactly that sensitivity. -/
def gcmTag (key header nonce ct : List Nat) : List Nat :=
  (key.sum + header.sum + nonce.sum + ct.sum) % 256 :: List.replicate 15 0

/-- Modelled from the spec: `open` / `decrypt_and_verify`: verification and
decryption are atomic — if the tag does not verify against
`(header, nonce, ciphertext)` under `key` the result is `none`
(`AuthenticationError`, the `ValueError` branch of `decrypt` and
`aes_decrypt` in the source) and no plaintext bytes are released. -/
def gcmOpen (key header nonce tag ct : List Nat) : Option (List Nat) :=
  if tag = gcmTag key header nonce ct then some (gcmDecrypt key nonce ct) else none

/-- One sealed chunk record as assembled by the `protect_firmware` loop:
`metadata + nonce + tag + ciphertext`. -/
structure EncChunk where
  metadata : List Nat
  nonce : List Nat
  tag : List Nat
  ciphertext : List Nat
deriving DecidableEq

/-- Byte serialization of one record, in the source's append order. -/
def recBytes (r : EncChunk) : List Nat :=
  r.metadata ++ r.nonce ++ r.tag ++ r.ciphertext

/-- One iteration of the `protect_firmware` encryption loop: pad the block,
pack the header `(len(pad(chunk)), version, len(firmware), idx)`, bind the
header as associated data and seal the padded block. `none` models the
`struct.error` raised by `struct.pack` on an out-of-range field. -/
def sealChunk (key nonce : List Nat) (version : Int) (fwLen : Nat) (idx : Int)
    (chunk : List Nat) : Option EncChunk :=
  match pack_header ((pad chunk BLOCK_SIZE).length : Int) version (fwLen : Int) idx with
  | none => none
  | some md =>
    some ⟨md, nonce, gcmTag key md nonce (gcmEncrypt key nonce (pad chunk BLOCK_SIZE)),
      gcmEncrypt key nonce (pad chunk BLOCK_SIZE)⟩

/-- The chunk-splitting step of `protect_firmware`: `chunks_needed` full
1000-byte slices, plus the remainder slice when `CHUNK_SIZE * chunks_needed -
len(firmware)` is nonzero (the source computes that difference over the
integers, hence the `Int` cast). -/
def splitChunks (firmware : List Nat) : List (List Nat) :=
  let chunks_needed := firmware.length / CHUNK_SIZE
  let base := (List.range chunks_needed).map
    fun i => (firmware.drop (i * CHUNK_SIZE)).take CHUNK_SIZE
  if (CHUNK_SIZE * chunks_needed : Int) - (firmware.length : Int) ≠ 0 then
    base ++ [firmware.drop (CHUNK_SIZE * chunks_needed)]
  else base

/-- The `for i, chunk in enumerate(chunks)` loop of `protect_firmware`,
sealing each chunk with its enumeration index, starting at `i`. -/
def encodeChunks (key : List Nat) (nonces : Nat → List Nat) (version : Int) (fwLen : Nat) :
    Nat → List (List Nat) → Option (List EncChunk)
  | _, [] => some []
  | i, c :: cs =>
    match sealChunk key (nonces i) version fwLen (i : Int) c with
    | none => none
    | some r =>
      match encodeChunks key nonces version fwLen (i + 1) cs with
      | none => none
      | some rs => some (r :: rs)

/-- Record-level view of `protect_firmware`: all firmware chunks in index
order, then the release-message chunk (`message + b'\x00'`, chunk index -1).
The per-chunk random nonces of `AES.new(key, AES.MODE_GCM)` enter as the
`nonces` stream. -/
def bundleRecords (firmware : List Nat) (version : Int) (message : List Nat)
    (key : List Nat) (nonces : Nat → List Nat) : Option (List EncChunk) :=
  match encodeChunks key nonces version firmware.length 0 (splitChunks firmware) with
  | none => none
  | some rs =>
    match sealChunk key (nonces (splitChunks firmware).length) version firmware.length
        (-1) (message ++ [0]) with
    | none => none
    | some sentinel => some (rs ++ [sentinel])

/-- The byte string `protect_firmware` writes to its output file: the
concatenation `metadata + nonce + tag + ciphertext` of every record. -/
def protect_firmware (firmware : List Nat) (version : Int) (message : List Nat)
    (key : List Nat) (nonces : Nat → List Nat) : Option (List Nat) :=
  (bundleRecords firmware version message key nonces).map fun rs => (rs.map recBytes).flatten

/-- Flip bit `j` of the byte at position `i`. -/
def flipBit (bs : List Nat) (i j : Nat) : List Nat :=
  bs.set i (bs.getD i 0 ^^^ 2 ^ j)

/-- Modelled from the spec: the record-by-record bundle parser (the
repository only decodes bundles inside its test driver; the spec's bundle
file format section says parsers scan record-by-record using each record's
own `padded_length`). Each step takes the 8-byte header, the 16-byte nonce,
the 16-byte tag and `padded_length` ciphertext bytes, opens the chunk,
strips the padding and records `(chunk_index, plaintext)`. The fuel
argument bounds the recursion; `blob.length` fuel always suffices. -/
def decodeRecords (key : List Nat) : Nat → List Nat → Option (List (Int × List Nat))
  | _, [] => some []
  | 0, _ :: _ => none
  | fuel + 1, b :: tl =>
    if (b :: tl).length < 40 + readU16LE (b :: tl) 0 then none
    else
      match gcmOpen key ((b :: tl).take 8) (((b :: tl).drop 8).take 16)
          (((b :: tl).drop 24).take 16) (((b :: tl).drop 40).take (readU16LE (b :: tl) 0)) with
      | none => none
      | some ptxt =>
        match unpad ptxt with
        | none => none
        | some p =>
          match decodeRecords key fuel ((b :: tl).drop (40 + readU16LE (b :: tl) 0)) with
          | none => none
          | some rest => some ((readInt16LE (b :: tl) 6, p) :: rest)

/-- Modelled from the spec: full bundle decoding — parse every record,
require the trailing sentinel chunk (index -1), and return the
concatenation of the firmware chunks (index 0 and up, in bundle order)
together with the sentinel plaintext. -/
def decodeBundle (key blob : List Nat) : Option (List Nat × List Nat) :=
  match decodeRecords key blob.length blob with
  | none => none
  | some rs =>
    match rs.getLast? with
    | none => none
    | some (i, pm) =>
      if i = -1 then
        some ((((rs.filter fun p => decide ((0 : Int) ≤ p.1)).map Prod.snd)).flatten, pm)
      else none

/-- Expected decode of a run of chunks sealed with indices `i, i+1, ...`. -/
def indexedFrom (i : Nat) : List (List Nat) → List (Int × List Nat)
  | [] => []
  | c :: cs => ((i : Int), c) :: indexedFrom (i + 1) cs

/-- Event on the serial channel, as seen from the updater tool. -/
inductive SerialEv where
  | wr (bs : List Nat)
  | rd (b : Nat)
deriving DecidableEq

/-- Abnormal outcome of a transfer-tool run: an unbounded blocking loop, an
uncaught `RuntimeError`, or the `ZeroDivisionError` of the `num_chunks`
computation. -/
inductive TransferErr where
  | hang
  | runtimeError
  | zeroDivision
deriving DecidableEq

/-- The `while ser.read(1).decode() != 'U'` handshake loop of
`send_metadata`: consume response bytes until one equals `'U'` (85),
returning the read events and the unconsumed responses. Exhausting the
responses models the loop blocking forever. -/
def waitU : List Nat → Option (List SerialEv × List Nat)
  | [] => none
  | b :: rest =>
    if b = 85 then some ([SerialEv.rd b], rest)
    else
      match waitU rest with
      | none => none
      | some (t, r) => some (SerialEv.rd b :: t, r)

/-- Model of `send_metadata`: write the sentinel byte `'U'`, block reading
until the peer echoes `'U'`, write `metadata`, `nonce` and `tag`, then read
one acknowledgement byte; any response other than `0x00` raises
`RuntimeError`. On success the value carries the event trace and the
remaining response stream; on error the run aborts. -/
def send_metadata (metadata nonce tag : List Nat) (input : List Nat) :
    Except TransferErr (List SerialEv × List Nat) :=
  match waitU input with
  | none => .error .hang
  | some (t, rest) =>
    match rest with
    | [] => .error .runtimeError
    | r :: rest2 =>
      if r = 0 then
        .ok (SerialEv.wr [85] :: t ++
          [SerialEv.wr metadata, SerialEv.wr nonce, SerialEv.wr tag, SerialEv.rd r], rest2)
      else .error .runtimeError

/-- Model of `send_frame`: write the frame, read one response byte, raise
`RuntimeError` whenever the response differs from `0x00`. The subsequent
`resp == RESP_ERR` branch (increment the error counter and resend the same
frame) is kept exactly as written in the source even though the earlier
check makes it unreachable. An exhausted response stream models the 2-second
serial timeout returning empty bytes, which also fails the `RESP_OK` check. -/
def send_frame (frame : List Nat) (errorCounter : Nat) :
    List Nat → Except TransferErr (List SerialEv × Nat × List Nat)
  | [] => .error .runtimeError
  | r :: rest =>
    if r ≠ 0 then .error .runtimeError
    else if r = 1 then
      match send_frame frame (errorCounter + 1) rest with
      | .error e => .error e
      | .ok (t, ec, rest2) => .ok (SerialEv.wr frame :: SerialEv.rd r :: t, ec, rest2)
    else .ok ([SerialEv.wr frame, SerialEv.rd r], errorCounter, rest)

/-- The frame boundaries of `range(0, len(firmware), FRAME_SIZE)`: slices of
at most 16 bytes. -/
def frameSlices (fwc : List Nat) : List (List Nat) :=
  (List.range ((fwc.length + 15) / 16)).map fun j => (fwc.drop (16 * j)).take 16

/-- The per-frame loop of `main`. Before each frame the loop checks
`error_counter > 10` and returns early from `main` when it holds; `main`'s
`error_counter` is a local variable that is never updated (the increment in
`send_frame` targets a different variable), so the value passed here stays
constant through the loop and the counter returned by `send_frame` is
discarded, exactly as in the source. The boolean result records an early
return. -/
def frameLoopGo (errorCounter : Nat) :
    List (List Nat) → List Nat → Except TransferErr (Bool × List SerialEv × List Nat)
  | [], inp => .ok (false, [], inp)
  | f :: fs, inp =>
    if 10 < errorCounter then .ok (true, [], inp)
    else
      match send_frame f errorCounter inp with
      | .error e => .error e
      | .ok (t, _, inp2) =>
        match frameLoopGo errorCounter fs inp2 with
        | .error e => .error e
        | .ok (early, t2, inp3) => .ok (early, t ++ t2, inp3)

/-- The value `main` unpacks as `fw_size`: the unsigned 16-bit value at
bytes 2..4 of the bundle. -/
def mainFwSize (blob : List Nat) : Nat := readU16LE blob 2

/-- The value `main` unpacks as `chunk_size`: the unsigned 16-bit value at
bytes 6..8 of the bundle. -/
def mainChunkSize (blob : List Nat) : Nat := readU16LE blob 6

/-- The payload start `main` computes for a chunk:
`PACKET_SIZE * packet_index + 40` with `PACKET_SIZE = 1064`. -/
def mainFwStart (packet_index : Nat) : Nat := 1064 * packet_index + 40

/-- The `num_chunks = int(fw_size / chunk_size)` computation of `main`:
`none` models the `ZeroDivisionError` raised when `chunk_size` is zero. -/
def mainNumChunks (blob : List Nat) : Option Nat :=
  if mainChunkSize blob = 0 then none
  else some (mainFwSize blob / mainChunkSize blob)

/-- The `for i in range(num_chunks)` loop of `main`: slice the metadata,
nonce and tag at offset `i * chunk_size`, run `send_metadata`, re-read
`chunk_size` (bytes 6..8 of the chunk header region) and `packet_index`
(bytes 4..6, read with the updated `chunk_size`), slice the chunk payload
at `1064 * packet_index + 40`, and stream its frames. The re-read
`chunk_size` carries into the next iteration, as in the source (the
re-read `fw_size` is dead and omitted). The boolean marks an early return
from the frame loop, which skips the remaining chunks. -/
def mainChunkLoop (blob : List Nat) :
    Nat → Nat → Nat → List Nat → Except TransferErr (Bool × List SerialEv × Nat × List Nat)
  | 0, _, chunk_size, inp => .ok (false, [], chunk_size, inp)
  | k + 1, i, chunk_size, inp =>
    match send_metadata ((blob.drop (i * chunk_size)).take 8)
        ((blob.drop (i * chunk_size + 8)).take 16)
        ((blob.drop (i * chunk_size + 24)).take 16) inp with
    | .error e => .error e
    | .ok (t1, inp1) =>
      match frameLoopGo 0 (frameSlices ((blob.drop
          (mainFwStart (readU16LE blob (i * readU16LE blob (i * chunk_size + 6) + 4)))).take
          (readU16LE blob (i * chunk_size + 6)))) inp1 with
      | .error e => .error e
      | .ok (true, t2, inp2) =>
        .ok (true, t1 ++ t2, readU16LE blob (i * chunk_size + 6), inp2)
      | .ok (false, t2, inp2) =>
        match mainChunkLoop blob k (i + 1) (readU16LE blob (i * chunk_size + 6)) inp2 with
        | .error e => .error e
        | .ok (early, t3, cs3, inp3) => .ok (early, t1 ++ t2 ++ t3, cs3, inp3)

/-- Model of `main` in `fw_update`: unpack `fw_size` from bytes 2..4 and
`chunk_size` from bytes 6..8, compute `num_chunks = int(fw_size /
chunk_size)` (a `ZeroDivisionError` when `chunk_size` is zero, raised
before anything is written to the serial channel), run the chunk loop, and
on normal completion write the 2-byte zero terminator. -/
def mainRun (blob : List Nat) (input : List Nat) :
    Except TransferErr (Bool × List SerialEv) :=
  if mainChunkSize blob = 0 then .error .zeroDivision
  else
    match mainChunkLoop blob (mainFwSize blob / mainChunkSize blob) 0
        (mainChunkSize blob) input with
    | .error e => .error e
    | .ok (true, t, _, _) => .ok (true, t)
    | .ok (false, t, _, _) => .ok (false, t ++ [SerialEv.wr [0, 0]])

/-- Trace shape of the frame phase: a concatenation of
write-frame / read-OK pairs. -/
inductive FrameEvs : List SerialEv → Prop
  | nil : FrameEvs []
  | pair (f : List Nat) (rest : List SerialEv) :
      FrameEvs rest → FrameEvs (SerialEv.wr f :: SerialEv.rd 0 :: rest)

/-- Trace shape asserting that every chunk's metadata write is immediately
preceded by a complete handshake: the trace is a concatenation of segments,
each consisting of the sentinel write `'U'`, reads of non-`'U'` bytes, the
read of the echoed `'U'`, and then at once the metadata, nonce and tag
writes, the acknowledgement read, and the chunk's frame write/ack pairs. -/
inductive HandshakeLedMeta : List SerialEv → Prop
  | nil : HandshakeLedMeta []
  | seg (pre : List Nat) (md nonce tag : List Nat) (frameEvs rest : List SerialEv) :
      (∀ b ∈ pre, b ≠ 85) →
      FrameEvs frameEvs →
      HandshakeLedMeta rest →
      HandshakeLedMeta (SerialEv.wr [85] :: (pre.map SerialEv.rd ++ [SerialEv.rd 85]) ++
        SerialEv.wr md :: SerialEv.wr nonce :: SerialEv.wr tag :: SerialEv.rd 0 ::
        (frameEvs ++ rest))

/-! ### Byte-level helper lemmas -/

theorem readU16LE_cons_succ (x : Nat) (l : List Nat) (k : Nat) :
    readU16LE (x :: l) (k + 1) = readU16LE l k := rfl

theorem readU16LE_append_right (l tl : List Nat) (k : Nat) :
    readU16LE (l ++ tl) (l.length + k) = readU16LE tl k := by
  unfold readU16LE
  rw [List.getD_append_right l tl 0 (l.length + k) (by omega),
    List.getD_append_right l tl 0 (l.length + k + 1) (by omega)]
  have h1 : l.length + k - l.length = k := by omega
  have h2 : l.length + k + 1 - l.length = k + 1 := by omega
  rw [h1, h2]

theorem int16LE_ofNat (n : Nat) (h : n < 65536) : int16LE (n : Int) = [n % 256, n / 256] := by
  have hm : (((n : Int) + 65536) % 65536) = (n : Int) := by omega
  simp [int16LE, hm]

theorem readU16LE_int16LE_ofNat (n : Nat) (h : n < 65536) (tl : List Nat) :
    readU16LE (int16LE (n : Int) ++ tl) 0 = n := by
  rw [int16LE_ofNat n h]
  have hr : readU16LE ((n % 256) :: (n / 256) :: tl) 0 = n % 256 + 256 * (n / 256) := rfl
  rw [List.cons_append, List.cons_append, List.nil_append] at *
  rw [hr]
  omega

theorem readInt16LE_int16LE (v : Int) (h1 : -32768 ≤ v) (h2 : v ≤ 32767) (tl : List Nat) :
    readInt16LE (int16LE v ++ tl) 0 = v := by
  have hu : readU16LE (int16LE v ++ tl) 0 =
      ((v + 65536) % 65536).toNat % 256 + 256 * (((v + 65536) % 65536).toNat / 256) := rfl
  rw [readInt16LE, hu]
  split <;> omega

theorem fitsInt16_true_iff (v : Int) : fitsInt16 v = true ↔ (-32768 ≤ v ∧ v ≤ 32767) := by
  simp [fitsInt16]

theorem fitsInt16_ofNat (n : Nat) : fitsInt16 (n : Int) = true ↔ n ≤ 32767 := by
  rw [fitsInt16_true_iff]
  omega

/-! ### Padding lemmas -/

theorem pad_length (d : List Nat) : (pad d 16).length = d.length + (16 - d.length % 16) := by
  simp [pad]

theorem unpad_pad (d : List Nat) : unpad (pad d 16) = some d := by
  have hp0 : 0 < 16 - d.length % 16 := by omega
  have hplen : (pad d 16).length = d.length + (16 - d.length % 16) := pad_length d
  have hlast : (pad d 16).getLast? = some (16 - d.length % 16) := by
    rw [pad, List.getLast?_append_of_ne_nil d (by simp; omega)]
    cases h : 16 - d.length % 16 with
    | zero => omega
    | succ n => simp [List.getLast?_replicate]
  have hsub : (pad d 16).length - (16 - d.length % 16) = d.length := by omega
  have hdrop : (pad d 16).drop ((pad d 16).length - (16 - d.length % 16)) =
      List.replicate (16 - d.length % 16) (16 - d.length % 16) := by
    rw [hsub, pad, List.drop_left]
  have htake : (pad d 16).take ((pad d 16).length - (16 - d.length % 16)) = d := by
    rw [hsub, pad, List.take_left]
  have hstep : unpad (pad d 16) =
      if 16 - d.length % 16 = 0 ∨ 16 < 16 - d.length % 16 ∨
          (pad d 16).length < 16 - d.length % 16 then none
      else if ((pad d 16).drop ((pad d 16).length - (16 - d.length % 16))).all
          (fun b => b == 16 - d.length % 16) then
        some ((pad d 16).take ((pad d 16).length - (16 - d.length % 16)))
      else none := by
    rw [unpad, hlast]
  rw [hstep, if_neg (by omega), hdrop,
    if_pos (by simp [List.all_eq_true, List.mem_replicate]), htake]

/-! ### Keystream and tag lemmas -/

theorem length_keystream (key nonce : List Nat) (n : Nat) :
    (keystream key nonce n).length = n := by
  simp [keystream]

theorem zipWith_xor_cancel (p : List Nat) : ∀ ks : List Nat, p.length = ks.length →
    (p.zipWith (fun a b => a ^^^ b) ks).zipWith (fun a b => a ^^^ b) ks = p := by
  induction p with
  | nil => intro ks h; simp
  | cons a p ih =>
    intro ks h
    cases ks with
    | nil => simp at h
    | cons b ks =>
      simp only [List.zipWith_cons_cons]
      rw [ih ks (by simpa using h)]
      congr 1
      exact Nat.xor_cancel_right b a

theorem gcmEncrypt_length (key nonce p : List Nat) :
    (gcmEncrypt key nonce p).length = p.length := by
  simp [gcmEncrypt, length_keystream]

theorem gcmDecrypt_gcmEncrypt (key nonce p : List Nat) :
    gcmDecrypt key nonce (gcmEncrypt key nonce p) = p := by
  rw [gcmDecrypt, gcmEncrypt_length]
  exact zipWith_xor_cancel p (keystream key nonce p.length)
    (length_keystream key nonce p.length).symm

theorem gcmTag_length (key header nonce ct : List Nat) :
    (gcmTag key header nonce ct).length = 16 := by
  simp [gcmTag]

theorem gcmOpen_gcmTag (key header nonce ct : List Nat) :
    gcmOpen key header nonce (gcmTag key header nonce ct) ct =
      some (gcmDecrypt key nonce ct) := by
  rw [gcmOpen, if_pos rfl]

/-! ### Bit-flip lemmas -/

theorem sum_set (l : List Nat) : ∀ (i b : Nat), i < l.length →
    (l.set i b).sum + l.getD i 0 = l.sum + b := by
  induction l with
  | nil => intro i b h; simp at h
  | cons a l ih =>
    intro i b h
    cases i with
    | zero => simp [List.getD]; omega
    | succ n =>
      simp only [List.set_cons_succ, List.sum_cons, List.getD_cons_succ]
      have := ih n b (by simpa using h)
      omega

theorem xor_two_pow_mod_ne (a j : Nat) (hj : j < 8) : (a ^^^ 2 ^ j) % 256 ≠ a % 256 := by
  intro h
  have h8 : (256 : Nat) = 2 ^ 8 := by norm_num
  rw [h8] at h
  have hbit := congrArg (fun x => x.testBit j) h
  simp only [Nat.testBit_mod_two_pow, Nat.testBit_xor, Nat.testBit_two_pow_self] at hbit
  rw [decide_eq_true hj] at hbit
  simp at hbit

theorem flip_sum_shift (bs : List Nat) (i j : Nat) (hi : i < bs.length) :
    (flipBit bs i j).sum + bs.getD i 0 = bs.sum + (bs.getD i 0 ^^^ 2 ^ j) :=
  sum_set bs i _ hi

theorem flip_sum_mod_ne (bs : List Nat) (i j : Nat) (hi : i < bs.length) (hj : j < 8)
    (T1 T2 : Nat) : (T1 + (flipBit bs i j).sum + T2) % 256 ≠ (T1 + bs.sum + T2) % 256 := by
  have h1 := flip_sum_shift bs i j hi
  have h2 := xor_two_pow_mod_ne (bs.getD i 0) j hj
  omega

theorem flipBit_ne (bs : List Nat) (i j : Nat) (hi : i < bs.length) : flipBit bs i j ≠ bs := by
  intro h
  have h2 : (flipBit bs i j).getD i 0 = bs.getD i 0 ^^^ 2 ^ j := by
    simp [flipBit, List.getD, hi]
  rw [h] at h2
  have h3 := congrArg (fun x => x.testBit j) h2
  simp [Nat.testBit_xor, Nat.testBit_two_pow_self] at h3

/-! ### Header packing and sealing lemmas -/

theorem int16LE_length (v : Int) : (int16LE v).length = 2 := rfl

theorem pack_header_pos (plen version total idx : Int)
    (h : (fitsInt16 plen && fitsInt16 version && fitsInt16 total && fitsInt16 idx) = true) :
    pack_header plen version total idx =
      some (int16LE plen ++ int16LE version ++ int16LE total ++ int16LE idx) := by
  rw [pack_header, if_pos h]

theorem pack_header_some_cond {plen version total idx : Int} {md : List Nat}
    (h : pack_header plen version total idx = some md) :
    (fitsInt16 plen && fitsInt16 version && fitsInt16 total && fitsInt16 idx) = true ∧
      md = int16LE plen ++ int16LE version ++ int16LE total ++ int16LE idx := by
  rw [pack_header] at h
  split at h
  · rename_i hc
    simp only [Option.some.injEq] at h
    exact ⟨hc, h.symm⟩
  · exact absurd h (by simp)

theorem pack_header_none_iff (plen version total idx : Int) :
    pack_header plen version total idx = none ↔
      ¬(fitsInt16 plen = true ∧ fitsInt16 version = true ∧ fitsInt16 total = true ∧
        fitsInt16 idx = true) := by
  rw [pack_header]
  split
  · rename_i h
    simp only [Bool.and_eq_true] at h
    simp [h.1.1.1, h.1.1.2, h.1.2, h.2]
  · rename_i h
    simp only [Bool.and_eq_true] at h
    constructor
    · intro _ hc
      exact h ⟨⟨⟨hc.1, hc.2.1⟩, hc.2.2.1⟩, hc.2.2.2⟩
    · intro _
      rfl

theorem readU16LE_int16LE_shift (v : Int) (rest : List Nat) (k : Nat) :
    readU16LE (int16LE v ++ rest) (k + 2) = readU16LE rest k := by
  have h := readU16LE_append_right (int16LE v) rest k
  rw [int16LE_length] at h
  rw [Nat.add_comm k 2]
  exact h

theorem readInt16LE_int16LE_shift (v : Int) (rest : List Nat) (k : Nat) :
    readInt16LE (int16LE v ++ rest) (k + 2) = readInt16LE rest k := by
  rw [readInt16LE, readInt16LE, readU16LE_int16LE_shift]

theorem readU16LE_int16LE_nil (n : Nat) (h : n < 65536) :
    readU16LE (int16LE (n : Int)) 0 = n := by
  rw [int16LE_ofNat n h]
  have hr : readU16LE [n % 256, n / 256] 0 = n % 256 + 256 * (n / 256) := rfl
  rw [hr]
  omega

theorem readInt16LE_int16LE_nil (v : Int) (h1 : -32768 ≤ v) (h2 : v ≤ 32767) :
    readInt16LE (int16LE v) 0 = v := by
  have hu : readU16LE (int16LE v) 0 =
      ((v + 65536) % 65536).toNat % 256 + 256 * (((v + 65536) % 65536).toNat / 256) := rfl
  rw [readInt16LE, hu]
  split <;> omega

theorem sealChunk_eq (key nonce : List Nat) (version : Int) (fwLen : Nat) (idx : Int)
    (chunk : List Nat) (hv : fitsInt16 version = true) (hf : fwLen ≤ 32767)
    (hp : (pad chunk 16).length ≤ 32767) (hi : fitsInt16 idx = true) :
    sealChunk key nonce version fwLen idx chunk =
      some ⟨int16LE ((pad chunk 16).length : Int) ++ int16LE version ++
          int16LE (fwLen : Int) ++ int16LE idx, nonce,
        gcmTag key (int16LE ((pad chunk 16).length : Int) ++ int16LE version ++
          int16LE (fwLen : Int) ++ int16LE idx) nonce (gcmEncrypt key nonce (pad chunk 16)),
        gcmEncrypt key nonce (pad chunk 16)⟩ := by
  have hpack := pack_header_pos ((pad chunk 16).length : Int) version (fwLen : Int) idx
    (by simp [(fitsInt16_ofNat _).mpr hp, hv, (fitsInt16_ofNat fwLen).mpr hf, hi])
  unfold sealChunk
  simp only [BLOCK_SIZE]
  rw [hpack]

theorem sealChunk_some {key nonce : List Nat} {version : Int} {fwLen : Nat} {idx : Int}
    {chunk : List Nat} {r : EncChunk}
    (h : sealChunk key nonce version fwLen idx chunk = some r) :
    r.metadata = int16LE ((pad chunk 16).length : Int) ++ int16LE version ++
        int16LE (fwLen : Int) ++ int16LE idx ∧
      r.nonce = nonce ∧ r.ciphertext = gcmEncrypt key nonce (pad chunk 16) ∧
      r.tag = gcmTag key r.metadata r.nonce r.ciphertext ∧
      (pad chunk 16).length ≤ 32767 ∧ fitsInt16 version = true ∧ fwLen ≤ 32767 ∧
      fitsInt16 idx = true := by
  unfold sealChunk at h
  simp only [BLOCK_SIZE] at h
  cases hp : pack_header ((pad chunk 16).length : Int) version (fwLen : Int) idx with
  | none => rw [hp] at h; exact absurd h (by simp)
  | some md =>
    rw [hp] at h
    simp only [Option.some.injEq] at h
    obtain ⟨hc, hmd⟩ := pack_header_some_cond hp
    simp only [Bool.and_eq_true] at hc
    subst h
    refine ⟨hmd, rfl, rfl, rfl, ?_, hc.1.1.2, ?_, hc.2⟩
    · exact (fitsInt16_ofNat _).mp hc.1.1.1
    · exact (fitsInt16_ofNat _).mp hc.1.2

/-! ### Chunk-splitting lemmas -/

theorem splitChunks_eq (fw : List Nat) :
    splitChunks fw =
      if fw.length % 1000 = 0 then
        (List.range (fw.length / 1000)).map fun i => (fw.drop (i * 1000)).take 1000
      else ((List.range (fw.length / 1000)).map fun i => (fw.drop (i * 1000)).take 1000) ++
        [fw.drop (1000 * (fw.length / 1000))] := by
  simp only [splitChunks, CHUNK_SIZE]
  split
  · rename_i h
    rw [if_neg (by omega)]
  · rename_i h
    rw [if_pos (by omega)]

theorem length_splitChunks (fw : List Nat) :
    (splitChunks fw).length = (fw.length + 999) / 1000 := by
  rw [splitChunks_eq]
  split <;> rename_i h <;> simp <;> omega

theorem splitChunks_full (fw : List Nat) (i : Nat) (hi : i < fw.length / 1000) :
    ((fw.drop (i * 1000)).take 1000).length = 1000 := by
  simp only [List.length_take, List.length_drop]
  omega

theorem splitChunks_mem_length (fw : List Nat) (c : List Nat) (h : c ∈ splitChunks fw) :
    c.length ≤ 1000 := by
  rw [splitChunks_eq] at h
  split at h
  · obtain ⟨i, _, rfl⟩ := List.mem_map.mp h
    exact List.length_take_le 1000 _
  · rcases List.mem_append.mp h with hm | hm
    · obtain ⟨i, _, rfl⟩ := List.mem_map.mp hm
      exact List.length_take_le 1000 _
    · rw [List.mem_singleton.mp hm]
      simp only [List.length_drop]
      omega

theorem join_slices (fw : List Nat) : ∀ n : Nat, 1000 * n ≤ fw.length →
    ((List.range n).map fun i => (fw.drop (i * 1000)).take 1000).flatten ++
      fw.drop (1000 * n) = fw := by
  intro n
  induction n with
  | zero => simp
  | succ m ih =>
    intro h
    rw [List.range_succ, List.map_append, List.flatten_append]
    simp only [List.map_cons, List.map_nil, List.flatten_cons, List.flatten_nil,
      List.append_nil]
    rw [List.append_assoc]
    have hd1 : fw.drop (1000 * (m + 1)) = ((fw.drop (m * 1000)).drop 1000) := by
      rw [List.drop_drop]
      congr 1
      ring
    have hdd : (fw.drop (m * 1000)).take 1000 ++ fw.drop (1000 * (m + 1)) =
        fw.drop (m * 1000) := by
      rw [hd1, List.take_append_drop]
    rw [hdd, Nat.mul_comm m 1000]
    exact ih (by omega)

theorem splitChunks_flatten (fw : List Nat) : (splitChunks fw).flatten = fw := by
  rw [splitChunks_eq]
  split
  · rename_i h
    have hj := join_slices fw (fw.length / 1000) (by omega)
    rw [show 1000 * (fw.length / 1000) = fw.length from by omega, List.drop_length,
      List.append_nil] at hj
    exact hj
  · rename_i h
    rw [List.flatten_append]
    simp only [List.flatten_cons, List.flatten_nil, List.append_nil]
    exact join_slices fw _ (by omega)

/-! ### Record decoding lemmas -/

theorem decodeRecords_cons (key : List Nat) (fuel : Nat) (r : EncChunk) (rest : List Nat)
    (chunk : List Nat) (idx : Int)
    (hmd8 : r.metadata.length = 8) (hn : r.nonce.length = 16)
    (ht : r.tag = gcmTag key r.metadata r.nonce r.ciphertext)
    (hct : r.ciphertext = gcmEncrypt key r.nonce (pad chunk 16))
    (hplen : readU16LE (recBytes r ++ rest) 0 = r.ciphertext.length)
    (hidx : readInt16LE (recBytes r ++ rest) 6 = idx) :
    decodeRecords key (fuel + 1) (recBytes r ++ rest) =
      (decodeRecords key fuel rest).map (fun l => (idx, chunk) :: l) := by
  have htlen : r.tag.length = 16 := by
    rw [ht]; exact gcmTag_length key r.metadata r.nonce r.ciphertext
  have hsplit : recBytes r ++ rest =
      r.metadata ++ (r.nonce ++ (r.tag ++ (r.ciphertext ++ rest))) := by
    simp [recBytes, List.append_assoc]
  have hlen : (recBytes r ++ rest).length = 40 + r.ciphertext.length + rest.length := by
    rw [hsplit]; simp only [List.length_append, hmd8, hn, htlen]; omega
  have htake8 : (recBytes r ++ rest).take 8 = r.metadata := by
    rw [hsplit]; exact List.take_left' hmd8
  have hdrop8 : (recBytes r ++ rest).drop 8 = r.nonce ++ (r.tag ++ (r.ciphertext ++ rest)) := by
    rw [hsplit]; exact List.drop_left' hmd8
  have hnonce : ((recBytes r ++ rest).drop 8).take 16 = r.nonce := by
    rw [hdrop8]; exact List.take_left' hn
  have hdrop24 : (recBytes r ++ rest).drop 24 = r.tag ++ (r.ciphertext ++ rest) := by
    have h1 : ((recBytes r ++ rest).drop 8).drop 16 = (recBytes r ++ rest).drop 24 := by
      rw [List.drop_drop]
    rw [← h1, hdrop8]
    exact List.drop_left' hn
  have htag : ((recBytes r ++ rest).drop 24).take 16 = r.tag := by
    rw [hdrop24]; exact List.take_left' htlen
  have hdrop40 : (recBytes r ++ rest).drop 40 = r.ciphertext ++ rest := by
    have h1 : ((recBytes r ++ rest).drop 24).drop 16 = (recBytes r ++ rest).drop 40 := by
      rw [List.drop_drop]
    rw [← h1, hdrop24]
    exact List.drop_left' htlen
  have hctslice : ((recBytes r ++ rest).drop 40).take (readU16LE (recBytes r ++ rest) 0) =
      r.ciphertext := by
    rw [hdrop40, hplen]
    exact List.take_left' rfl
  have hdroprec : (recBytes r ++ rest).drop (40 + readU16LE (recBytes r ++ rest) 0) = rest := by
    rw [hplen]
    have h1 : ((recBytes r ++ rest).drop 40).drop r.ciphertext.length =
        (recBytes r ++ rest).drop (40 + r.ciphertext.length) := by
      rw [List.drop_drop]
    rw [← h1, hdrop40]
    exact List.drop_left' rfl
  obtain ⟨b, tl, hbs⟩ : ∃ b tl, recBytes r ++ rest = b :: tl := by
    cases hx : recBytes r ++ rest with
    | nil =>
      rw [hx] at hlen
      simp only [List.length_nil] at hlen
      omega
    | cons b tl => exact ⟨b, tl, rfl⟩
  rw [hbs] at hlen htake8 hnonce htag hctslice hdroprec hplen hidx
  rw [hbs]
  simp only [decodeRecords]
  rw [if_neg (by rw [hlen, hplen]; omega)]
  rw [htake8, hnonce, htag, hctslice, ht, gcmOpen_gcmTag, hct, gcmDecrypt_gcmEncrypt]
  simp only [unpad_pad, hdroprec, hidx]
  cases hdec : decodeRecords key fuel rest <;> simp [hdec]

theorem decodeRecords_mono (key : List Nat) :
    ∀ (f : Nat) (bs : List Nat) (xs : List (Int × List Nat)),
      decodeRecords key f bs = some xs → ∀ f', f ≤ f' → decodeRecords key f' bs = some xs := by
  intro f
  induction f with
  | zero =>
    intro bs xs h f' _
    cases bs with
    | nil => cases f' <;> simpa using h
    | cons b tl => simp [decodeRecords] at h
  | succ n ih =>
    intro bs xs h f' hf
    cases bs with
    | nil => cases f' <;> simpa using h
    | cons b tl =>
      cases f' with
      | zero => omega
      | succ m =>
        simp only [decodeRecords] at h ⊢
        split at h
        · exact absurd h (by simp)
        · rename_i hc
          rw [if_neg hc]
          cases hopen : gcmOpen key ((b :: tl).take 8) (((b :: tl).drop 8).take 16)
              (((b :: tl).drop 24).take 16)
              (((b :: tl).drop 40).take (readU16LE (b :: tl) 0)) with
          | none => rw [hopen] at h; simp at h
          | some ptxt =>
            rw [hopen] at h
            dsimp only at h ⊢
            cases hup : unpad ptxt with
            | none => rw [hup] at h; simp at h
            | some p =>
              rw [hup] at h
              dsimp only at h ⊢
              cases hrec : decodeRecords key n ((b :: tl).drop (40 + readU16LE (b :: tl) 0)) with
              | none => rw [hrec] at h; simp at h
              | some l =>
                rw [hrec] at h
                rw [ih _ _ hrec m (by omega)]
                simpa using h

/-! ### Header field extraction -/

theorem md_field2 (p v t ix : Int) (h1 : -32768 ≤ v) (h2 : v ≤ 32767) :
    readInt16LE (int16LE p ++ int16LE v ++ int16LE t ++ int16LE ix) 2 = v := by
  simp only [List.append_assoc]
  rw [show (2 : Nat) = 0 + 2 from rfl, readInt16LE_int16LE_shift]
  exact readInt16LE_int16LE v h1 h2 _

theorem md_field4 (p v t ix : Int) (h1 : -32768 ≤ t) (h2 : t ≤ 32767) :
    readInt16LE (int16LE p ++ int16LE v ++ int16LE t ++ int16LE ix) 4 = t := by
  simp only [List.append_assoc]
  rw [show (4 : Nat) = 2 + 2 from rfl, readInt16LE_int16LE_shift,
    show (2 : Nat) = 0 + 2 from rfl, readInt16LE_int16LE_shift]
  exact readInt16LE_int16LE t h1 h2 _

theorem md_field6 (p v t ix : Int) (h1 : -32768 ≤ ix) (h2 : ix ≤ 32767) :
    readInt16LE (int16LE p ++ int16LE v ++ int16LE t ++ int16LE ix) 6 = ix := by
  simp only [List.append_assoc]
  rw [show (6 : Nat) = 4 + 2 from rfl, readInt16LE_int16LE_shift,
    show (4 : Nat) = 2 + 2 from rfl, readInt16LE_int16LE_shift,
    show (2 : Nat) = 0 + 2 from rfl, readInt16LE_int16LE_shift]
  exact readInt16LE_int16LE_nil ix h1 h2

theorem mdT_field0 (pn : Nat) (v t ix : Int) (h : pn < 65536) (tail : List Nat) :
    readU16LE ((int16LE (pn : Int) ++ int16LE v ++ int16LE t ++ int16LE ix) ++ tail) 0 = pn := by
  simp only [List.append_assoc]
  exact readU16LE_int16LE_ofNat pn h _

theorem mdT_field2_u16 (p : Int) (n : Nat) (t ix : Int) (h : n < 65536) (tail : List Nat) :
    readU16LE ((int16LE p ++ int16LE (n : Int) ++ int16LE t ++ int16LE ix) ++ tail) 2 = n := by
  simp only [List.append_assoc]
  rw [show (2 : Nat) = 0 + 2 from rfl, readU16LE_int16LE_shift]
  exact readU16LE_int16LE_ofNat n h _

theorem mdT_field4_u16 (p v : Int) (n : Nat) (ix : Int) (h : n < 65536) (tail : List Nat) :
    readU16LE ((int16LE p ++ int16LE v ++ int16LE (n : Int) ++ int16LE ix) ++ tail) 4 = n := by
  simp only [List.append_assoc]
  rw [show (4 : Nat) = 2 + 2 from rfl, readU16LE_int16LE_shift,
    show (2 : Nat) = 0 + 2 from rfl, readU16LE_int16LE_shift]
  exact readU16LE_int16LE_ofNat n h _

theorem mdT_field6_u16 (p v t : Int) (n : Nat) (h : n < 65536) (tail : List Nat) :
    readU16LE ((int16LE p ++ int16LE v ++ int16LE t ++ int16LE (n : Int)) ++ tail) 6 = n := by
  simp only [List.append_assoc]
  rw [show (6 : Nat) = 4 + 2 from rfl, readU16LE_int16LE_shift,
    show (4 : Nat) = 2 + 2 from rfl, readU16LE_int16LE_shift,
    show (2 : Nat) = 0 + 2 from rfl, readU16LE_int16LE_shift]
  exact readU16LE_int16LE_ofNat n h _

theorem mdT_field6_int (p v t ix : Int) (h1 : -32768 ≤ ix) (h2 : ix ≤ 32767)
    (tail : List Nat) :
    readInt16LE ((int16LE p ++ int16LE v ++ int16LE t ++ int16LE ix) ++ tail) 6 = ix := by
  simp only [List.append_assoc]
  rw [show (6 : Nat) = 4 + 2 from rfl, readInt16LE_int16LE_shift,
    show (4 : Nat) = 2 + 2 from rfl, readInt16LE_int16LE_shift,
    show (2 : Nat) = 0 + 2 from rfl, readInt16LE_int16LE_shift]
  exact readInt16LE_int16LE ix h1 h2 _

/-! ### Encoder soundness -/

theorem encodeChunks_sound (key : List Nat) (nonces : Nat → List Nat) (version : Int)
    (fwLen : Nat) (hv : fitsInt16 version = true) (hf : fwLen ≤ 32767)
    (hnlen : ∀ n, (nonces n).length = 16) :
    ∀ (cs : List (List Nat)) (i : Nat),
      (∀ c ∈ cs, (pad c 16).length ≤ 32767) → i + cs.length ≤ 32767 →
      ∃ rs, encodeChunks key nonces version fwLen i cs = some rs ∧
        ∀ (f : Nat) (rest : List Nat) (restDec : List (Int × List Nat)),
          decodeRecords key f rest = some restDec →
          decodeRecords key (f + cs.length) ((rs.map recBytes).flatten ++ rest) =
            some (indexedFrom i cs ++ restDec) := by
  intro cs
  induction cs with
  | nil =>
    intro i _ _
    refine ⟨[], rfl, ?_⟩
    intro f rest restDec h
    simpa [indexedFrom] using h
  | cons c cs ih =>
    intro i hpad hidx
    simp only [List.length_cons] at hidx
    have hseal := sealChunk_eq key (nonces i) version fwLen (i : Int) c hv hf
      (hpad c (by simp)) (by rw [fitsInt16_true_iff]; omega)
    obtain ⟨rs, hrs, hdec⟩ := ih (i + 1) (fun c hc => hpad c (by simp [hc])) (by omega)
    obtain ⟨R, hR⟩ : ∃ R, sealChunk key (nonces i) version fwLen (i : Int) c = some R :=
      ⟨_, hseal⟩
    obtain ⟨hmd, hnon, hct, htag, hp16, _, _, _⟩ := sealChunk_some hR
    have hmd8 : R.metadata.length = 8 := by rw [hmd]; simp [int16LE]
    have hctlen : R.ciphertext.length = (pad c 16).length := by
      rw [hct, gcmEncrypt_length]
    have hplenEq : ∀ X : List Nat, readU16LE (recBytes R ++ X) 0 = R.ciphertext.length := by
      intro X
      have hre : recBytes R ++ X =
          R.metadata ++ (R.nonce ++ (R.tag ++ (R.ciphertext ++ X))) := by
        simp [recBytes, List.append_assoc]
      rw [hre, hmd]
      rw [mdT_field0 (pad c 16).length version (fwLen : Int) (i : Int) (by omega) _]
      omega
    have hidxEq : ∀ X : List Nat, readInt16LE (recBytes R ++ X) 6 = (i : Int) := by
      intro X
      have hre : recBytes R ++ X =
          R.metadata ++ (R.nonce ++ (R.tag ++ (R.ciphertext ++ X))) := by
        simp [recBytes, List.append_assoc]
      rw [hre, hmd]
      exact mdT_field6_int _ _ _ _ (by omega) (by omega) _
    refine ⟨R :: rs, ?_, ?_⟩
    · simp only [encodeChunks]
      rw [hR, hrs]
    · intro f rest restDec hrest
      have hdec2 := hdec f rest restDec hrest
      have hflat : ((R :: rs).map recBytes).flatten ++ rest =
          recBytes R ++ ((rs.map recBytes).flatten ++ rest) := by
        simp [List.append_assoc]
      have hfuel : f + (c :: cs).length = (f + cs.length) + 1 := by
        simp only [List.length_cons]
        omega
      rw [hflat, hfuel]
      have hct2 : R.ciphertext = gcmEncrypt key R.nonce (pad c 16) := by
        rw [hnon]; exact hct
      rw [decodeRecords_cons key (f + cs.length) R ((rs.map recBytes).flatten ++ rest) c
        (i : Int) hmd8 (by rw [hnon]; exact hnlen i) htag hct2 (hplenEq _) (hidxEq _)]
      rw [hdec2]
      simp [indexedFrom]

/-! ### Bundle-level lemmas -/

theorem pad_length_le (c : List Nat) (h : c.length ≤ 1000) : (pad c 16).length ≤ 32767 := by
  rw [pad_length]; omega

theorem indexedFrom_filter (cs : List (List Nat)) : ∀ i : Nat,
    (indexedFrom i cs).filter (fun p => decide ((0 : Int) ≤ p.1)) = indexedFrom i cs := by
  induction cs with
  | nil => intro i; rfl
  | cons c cs ih =>
    intro i
    simp only [indexedFrom, List.filter_cons]
    rw [if_pos (by simp)]
    rw [ih (i + 1)]

theorem indexedFrom_map_snd (cs : List (List Nat)) : ∀ i : Nat,
    (indexedFrom i cs).map Prod.snd = cs := by
  induction cs with
  | nil => intro i; rfl
  | cons c cs ih => intro i; simp [indexedFrom, ih (i + 1)]

theorem flatten_length_ge (ls : List (List Nat)) (h : ∀ l ∈ ls, 1 ≤ l.length) :
    ls.length ≤ ls.flatten.length := by
  induction ls with
  | nil => simp
  | cons l ls ih =>
    simp only [List.flatten_cons, List.length_append, List.length_cons]
    have h1 := h l (by simp)
    have h2 := ih fun x hx => h x (by simp [hx])
    omega

theorem encodeChunks_meta (key : List Nat) (nonces : Nat → List Nat) (version : Int)
    (fwLen : Nat) :
    ∀ (cs : List (List Nat)) (i : Nat) (rs : List EncChunk),
      encodeChunks key nonces version fwLen i cs = some rs →
      rs.length = cs.length ∧
      (∀ r ∈ rs, r.metadata.length = 8 ∧ readInt16LE r.metadata 2 = version ∧
        readInt16LE r.metadata 4 = (fwLen : Int)) ∧
      rs.map (fun r => readInt16LE r.metadata 6) =
        (List.range' i cs.length).map Int.ofNat := by
  intro cs
  induction cs with
  | nil =>
    intro i rs h
    simp only [encodeChunks, Option.some.injEq] at h
    subst h
    simp
  | cons c cs ih =>
    intro i rs h
    simp only [encodeChunks] at h
    cases hseal : sealChunk key (nonces i) version fwLen (i : Int) c with
    | none => rw [hseal] at h; simp at h
    | some R =>
      rw [hseal] at h
      cases henc : encodeChunks key nonces version fwLen (i + 1) cs with
      | none => rw [henc] at h; simp at h
      | some rs' =>
        rw [henc] at h
        simp only [Option.some.injEq] at h
        subst h
        obtain ⟨hlen, hfields, hmap⟩ := ih (i + 1) rs' henc
        obtain ⟨hmd, _, _, _, hp16, hv, hf, hidx⟩ := sealChunk_some hseal
        have hvr := (fitsInt16_true_iff version).mp hv
        have hmd8 : R.metadata.length = 8 := by rw [hmd]; simp [int16LE]
        have hR2 : readInt16LE R.metadata 2 = version := by
          rw [hmd]; exact md_field2 _ _ _ _ hvr.1 hvr.2
        have hR4 : readInt16LE R.metadata 4 = (fwLen : Int) := by
          rw [hmd]; exact md_field4 _ _ _ _ (by omega) (by omega)
        have hR6 : readInt16LE R.metadata 6 = (i : Int) := by
          have hir := (fitsInt16_true_iff _).mp hidx
          rw [hmd]; exact md_field6 _ _ _ _ hir.1 hir.2
        refine ⟨by simp [hlen], ?_, ?_⟩
        · intro r hr
          rcases List.mem_cons.mp hr with rfl | hr
          · exact ⟨hmd8, hR2, hR4⟩
          · exact hfields r hr
        · rw [List.length_cons, List.range'_succ, List.map_cons, List.map_cons, hR6, hmap]
          rfl

theorem bundleRecords_sound (fw : List Nat) (version : Int) (m key : List Nat)
    (nonces : Nat → List Nat)
    (hv : fitsInt16 version = true) (hl : fw.length ≤ 32767)
    (hm : (pad (m ++ [0]) 16).length ≤ 32767) (hnlen : ∀ n, (nonces n).length = 16) :
    ∃ rs S, bundleRecords fw version m key nonces = some (rs ++ [S]) ∧
      encodeChunks key nonces version fw.length 0 (splitChunks fw) = some rs ∧
      sealChunk key (nonces (splitChunks fw).length) version fw.length (-1) (m ++ [0]) =
        some S ∧
      decodeBundle key (((rs ++ [S]).map recBytes).flatten) = some (fw, m ++ [0]) := by
  have hpads : ∀ c ∈ splitChunks fw, (pad c 16).length ≤ 32767 := fun c hc =>
    pad_length_le c (splitChunks_mem_length fw c hc)
  have hcnt : (splitChunks fw).length ≤ 33 := by
    rw [length_splitChunks]; omega
  obtain ⟨rs, hrs, hdec⟩ := encodeChunks_sound key nonces version fw.length hv hl hnlen
    (splitChunks fw) 0 hpads (by omega)
  have hsealS := sealChunk_eq key (nonces (splitChunks fw).length) version fw.length (-1)
    (m ++ [0]) hv hl hm (by decide)
  obtain ⟨S, hS⟩ : ∃ S, sealChunk key (nonces (splitChunks fw).length) version fw.length
      (-1) (m ++ [0]) = some S := ⟨_, hsealS⟩
  obtain ⟨hmdS, hnonS, hctS, htagS, hpS, _, _, _⟩ := sealChunk_some hS
  have hmd8S : S.metadata.length = 8 := by rw [hmdS]; simp [int16LE]
  have hctlenS : S.ciphertext.length = (pad (m ++ [0]) 16).length := by
    rw [hctS, gcmEncrypt_length]
  have hplenS : readU16LE (recBytes S ++ []) 0 = S.ciphertext.length := by
    have hre : recBytes S ++ [] =
        S.metadata ++ (S.nonce ++ (S.tag ++ (S.ciphertext ++ []))) := by
      simp [recBytes, List.append_assoc]
    rw [hre, hmdS, mdT_field0 (pad (m ++ [0]) 16).length version (fw.length : Int) (-1)
      (by omega) _]
    omega
  have hidxS : readInt16LE (recBytes S ++ []) 6 = (-1 : Int) := by
    have hre : recBytes S ++ [] =
        S.metadata ++ (S.nonce ++ (S.tag ++ (S.ciphertext ++ []))) := by
      simp [recBytes, List.append_assoc]
    rw [hre, hmdS]
    exact mdT_field6_int _ _ _ _ (by omega) (by omega) _
  have hct2S : S.ciphertext = gcmEncrypt key S.nonce (pad (m ++ [0]) 16) := by
    rw [hnonS]; exact hctS
  have hsent := decodeRecords_cons key 0 S [] (m ++ [0]) (-1) hmd8S
    (by rw [hnonS]; exact hnlen _) htagS hct2S hplenS hidxS
  rw [List.append_nil] at hsent
  have hsent2 : decodeRecords key 1 (recBytes S) = some [((-1 : Int), m ++ [0])] := by
    simpa using hsent
  have hfull := hdec 1 (recBytes S) [((-1 : Int), m ++ [0])] hsent2
  have hbundle : bundleRecords fw version m key nonces = some (rs ++ [S]) := by
    simp only [bundleRecords]
    rw [hrs, hS]
  have hblob : ((rs ++ [S]).map recBytes).flatten =
      (rs.map recBytes).flatten ++ recBytes S := by
    simp
  obtain ⟨hrslen, hfieldsr, _⟩ := encodeChunks_meta key nonces version fw.length
    (splitChunks fw) 0 rs hrs
  have hrec1 : ∀ l ∈ rs.map recBytes, 1 ≤ l.length := by
    intro l hml
    obtain ⟨r, hr, rfl⟩ := List.mem_map.mp hml
    have h8 := (hfieldsr r hr).1
    simp [recBytes]
    omega
  have hfuelbound : 1 + (splitChunks fw).length ≤
      ((rs.map recBytes).flatten ++ recBytes S).length := by
    have h1 := flatten_length_ge (rs.map recBytes) hrec1
    have h2 : (rs.map recBytes).length = (splitChunks fw).length := by
      rw [List.length_map, hrslen]
    have h3 : 1 ≤ (recBytes S).length := by simp [recBytes]; omega
    simp only [List.length_append]
    omega
  have hmono := decodeRecords_mono key (1 + (splitChunks fw).length)
    ((rs.map recBytes).flatten ++ recBytes S)
    (indexedFrom 0 (splitChunks fw) ++ [((-1 : Int), m ++ [0])]) hfull
    (((rs.map recBytes).flatten ++ recBytes S).length) (by omega)
  refine ⟨rs, S, hbundle, hrs, hS, ?_⟩
  simp only [decodeBundle]
  rw [hblob, hmono]
  dsimp only
  rw [List.getLast?_concat]
  dsimp only
  rw [if_pos rfl]
  rw [List.filter_append, indexedFrom_filter]
  have hfilterS : List.filter (fun p => decide ((0 : Int) ≤ p.1))
      [((-1 : Int), m ++ [0])] = [] := by simp
  rw [hfilterS, List.append_nil, indexedFrom_map_snd, splitChunks_flatten]

/-! ### Claim theorems -/

/-- C1: Round-trip. For every firmware byte buffer, every message, every
version representable in a signed 16-bit field, every key and every stream
of 16-byte nonces, decoding the bundle produced by the encoder
(`protect_firmware`) with the same key recovers the firmware exactly — the
concatenation of the decrypted, unpadded firmware chunks in index order —
and recovers the message followed by a single null byte from the trailing
sentinel chunk. The firmware and the padded message must fit the signed
16-bit header fields, which is exactly when the encoder succeeds. -/
theorem c1_round_trip (fw : List Nat) (version : Int) (m key : List Nat)
    (nonces : Nat → List Nat)
    (hv : fitsInt16 version = true) (hl : fw.length ≤ 32767)
    (hm : (pad (m ++ [0]) 16).length ≤ 32767) (hnlen : ∀ n, (nonces n).length = 16) :
    ∃ blob, protect_firmware fw version m key nonces = some blob ∧
      decodeBundle key blob = some (fw, m ++ [0]) := by
  obtain ⟨rs, S, hbundle, _, _, hdecode⟩ :=
    bundleRecords_sound fw version m key nonces hv hl hm hnlen
  refine ⟨((rs ++ [S]).map recBytes).flatten, ?_, hdecode⟩
  rw [protect_firmware, hbundle]
  rfl

theorem c1_round_trip_witness :
    ∃ blob, protect_firmware [65, 66] 7 [104, 105] [1, 2, 3]
        (fun _ => List.replicate 16 9) = some blob ∧
      decodeBundle [1, 2, 3] blob = some ([65, 66], [104, 105, 0]) := by
  have h := c1_round_trip [65, 66] 7 [104, 105] [1, 2, 3] (fun _ => List.replicate 16 9)
    (by decide) (by decide) (by decide) (fun n => by simp)
  simpa using h

/-- C2: Tamper detection with atomic failure. For every sealed chunk, if any
single bit of the header (associated data), the nonce, the tag, or the
ciphertext is flipped before decryption, then `open` fails (returns `none`,
the model of `AuthenticationError`) and releases no plaintext bytes: the
`none` result carries no partially decrypted buffer. -/
theorem c2_tamper_detection (key md nonce ct : List Nat) (i j : Nat) (hj : j < 8) :
    (i < md.length →
      gcmOpen key (flipBit md i j) nonce (gcmTag key md nonce ct) ct = none) ∧
    (i < nonce.length →
      gcmOpen key md (flipBit nonce i j) (gcmTag key md nonce ct) ct = none) ∧
    (i < (gcmTag key md nonce ct).length →
      gcmOpen key md nonce (flipBit (gcmTag key md nonce ct) i j) ct = none) ∧
    (i < ct.length →
      gcmOpen key md nonce (gcmTag key md nonce ct) (flipBit ct i j) = none) := by
  refine ⟨?_, ?_, ?_, ?_⟩
  · intro hi
    rw [gcmOpen, if_neg]
    intro heq
    simp only [gcmTag, List.cons.injEq] at heq
    have h1 := flip_sum_shift md i j hi
    have h2 := xor_two_pow_mod_ne (md.getD i 0) j hj
    omega
  · intro hi
    rw [gcmOpen, if_neg]
    intro heq
    simp only [gcmTag, List.cons.injEq] at heq
    have h1 := flip_sum_shift nonce i j hi
    have h2 := xor_two_pow_mod_ne (nonce.getD i 0) j hj
    omega
  · intro hi
    rw [gcmOpen, if_neg]
    exact flipBit_ne _ i j hi
  · intro hi
    rw [gcmOpen, if_neg]
    intro heq
    simp only [gcmTag, List.cons.injEq] at heq
    have h1 := flip_sum_shift ct i j hi
    have h2 := xor_two_pow_mod_ne (ct.getD i 0) j hj
    omega

theorem c2_tamper_detection_witness :
    gcmOpen [3] (flipBit (List.replicate 8 1) 0 0) (List.replicate 16 2)
        (gcmTag [3] (List.replicate 8 1) (List.replicate 16 2) (List.replicate 16 4))
        (List.replicate 16 4) = none ∧
    gcmOpen [3] (List.replicate 8 1) (flipBit (List.replicate 16 2) 5 3)
        (gcmTag [3] (List.replicate 8 1) (List.replicate 16 2) (List.replicate 16 4))
        (List.replicate 16 4) = none ∧
    gcmOpen [3] (List.replicate 8 1) (List.replicate 16 2)
        (flipBit (gcmTag [3] (List.replicate 8 1) (List.replicate 16 2)
          (List.replicate 16 4)) 15 7) (List.replicate 16 4) = none ∧
    gcmOpen [3] (List.replicate 8 1) (List.replicate 16 2)
        (gcmTag [3] (List.replicate 8 1) (List.replicate 16 2) (List.replicate 16 4))
        (flipBit (List.replicate 16 4) 9 1) = none := by
  refine ⟨?_, ?_, ?_, ?_⟩
  · exact (c2_tamper_detection [3] (List.replicate 8 1) (List.replicate 16 2)
      (List.replicate 16 4) 0 0 (by decide)).1 (by decide)
  · exact (c2_tamper_detection [3] (List.replicate 8 1) (List.replicate 16 2)
      (List.replicate 16 4) 5 3 (by decide)).2.1 (by decide)
  · exact (c2_tamper_detection [3] (List.replicate 8 1) (List.replicate 16 2)
      (List.replicate 16 4) 15 7 (by decide)).2.2.1 (by decide)
  · exact (c2_tamper_detection [3] (List.replicate 8 1) (List.replicate 16 2)
      (List.replicate 16 4) 9 1 (by decide)).2.2.2 (by decide)

/-- C7: Padding. Every plaintext block the encoder seals is padded
PKCS#7-style before encryption: the padded length is a multiple of 16, at
least one byte of padding is always added (a full 16-byte pad block when the
input is already a multiple of 16), each pad byte equals the pad length, the
header's padded_length field equals the resulting ciphertext length, and the
original block is exactly recoverable by stripping the padding after
decryption. -/
theorem c7_padding (d key nonce : List Nat) (version : Int) (fwLen : Nat) (idx : Int) :
    (pad d 16).length % 16 = 0 ∧
    d.length < (pad d 16).length ∧
    (d.length % 16 = 0 → (pad d 16).length = d.length + 16) ∧
    (∀ b ∈ (pad d 16).drop d.length, b = 16 - d.length % 16) ∧
    unpad (pad d 16) = some d ∧
    (gcmEncrypt key nonce (pad d 16)).length = (pad d 16).length ∧
    (∀ r, sealChunk key nonce version fwLen idx d = some r →
      readInt16LE r.metadata 0 = (r.ciphertext.length : Int) ∧
      r.ciphertext.length = (pad d 16).length) := by
  refine ⟨?_, ?_, ?_, ?_, unpad_pad d, gcmEncrypt_length key nonce (pad d 16), ?_⟩
  · rw [pad_length]; omega
  · rw [pad_length]; omega
  · intro h; rw [pad_length]; omega
  · intro b hb
    rw [pad, List.drop_left] at hb
    exact List.eq_of_mem_replicate hb
  · intro r hr
    obtain ⟨hmd, _, hct, _, hp16, _, _, _⟩ := sealChunk_some hr
    have hctlen : r.ciphertext.length = (pad d 16).length := by
      rw [hct, gcmEncrypt_length]
    refine ⟨?_, hctlen⟩
    rw [hmd, hctlen]
    simp only [List.append_assoc]
    exact readInt16LE_int16LE _ (by omega) (by omega) _

theorem c7_padding_witness :
    (pad [1, 2, 3] 16).length % 16 = 0 ∧
    (pad (List.replicate 16 0) 16).length = 16 + 16 ∧
    unpad (pad [1, 2, 3] 16) = some [1, 2, 3] ∧
    (∃ r, sealChunk [5] [6] 1 3 0 [1, 2, 3] = some r ∧
      readInt16LE r.metadata 0 = (r.ciphertext.length : Int)) := by
  refine ⟨(c7_padding [1, 2, 3] [] [] 0 0 0).1, ?_,
    (c7_padding [1, 2, 3] [] [] 0 0 0).2.2.2.2.1, ?_⟩
  · have h := (c7_padding (List.replicate 16 0) [] [] 0 0 0).2.2.1 (by decide)
    simpa using h
  · obtain ⟨r, hr⟩ : ∃ r, sealChunk [5] [6] 1 3 0 [1, 2, 3] = some r := ⟨_, rfl⟩
    exact ⟨r, hr, ((c7_padding [1, 2, 3] [5] [6] 1 3 0).2.2.2.2.2.2 r hr).1⟩

/-- C8: Chunking boundary. For every byte buffer, the split step yields
ceil(len/1000) blocks; all blocks before the last are exactly 1000 bytes;
when the length is an exact multiple of 1000 every block (and in particular
no short trailing block) has 1000 bytes; and when len = k*1000 + r with
0 < r < 1000 the trailing block has exactly r = len mod 1000 bytes. -/
theorem c8_chunking (fw : List Nat) :
    (splitChunks fw).length = (fw.length + 999) / 1000 ∧
    (∀ c ∈ (splitChunks fw).dropLast, c.length = 1000) ∧
    (fw.length % 1000 = 0 → ∀ c ∈ splitChunks fw, c.length = 1000) ∧
    (fw.length % 1000 ≠ 0 →
      (splitChunks fw).getLast?.map List.length = some (fw.length % 1000)) := by
  refine ⟨length_splitChunks fw, ?_, ?_, ?_⟩
  · intro c hc
    rw [splitChunks_eq] at hc
    split at hc
    · rename_i h
      have hc2 := List.dropLast_subset _ hc
      obtain ⟨i, hi, rfl⟩ := List.mem_map.mp hc2
      rw [List.mem_range] at hi
      simp only [List.length_take, List.length_drop]
      omega
    · rename_i h
      rw [List.dropLast_concat] at hc
      obtain ⟨i, hi, rfl⟩ := List.mem_map.mp hc
      rw [List.mem_range] at hi
      exact splitChunks_full fw i hi
  · intro h c hc
    rw [splitChunks_eq, if_pos h] at hc
    obtain ⟨i, hi, rfl⟩ := List.mem_map.mp hc
    rw [List.mem_range] at hi
    simp only [List.length_take, List.length_drop]
    omega
  · intro h
    rw [splitChunks_eq, if_neg h, List.getLast?_concat]
    show some (fw.drop (1000 * (fw.length / 1000))).length = some (fw.length % 1000)
    rw [List.length_drop]
    congr 1
    omega

theorem c8_chunking_witness :
    (splitChunks (List.replicate 2300 7)).length = 3 ∧
    (∀ c ∈ (splitChunks (List.replicate 2300 7)).dropLast, c.length = 1000) ∧
    (splitChunks (List.replicate 2300 7)).getLast?.map List.length = some 300 ∧
    (∀ c ∈ splitChunks (List.replicate 2000 7), c.length = 1000) := by
  refine ⟨?_, (c8_chunking (List.replicate 2300 7)).2.1, ?_, ?_⟩
  · have h := (c8_chunking (List.replicate 2300 7)).1
    rw [List.length_replicate] at h
    norm_num at h
    exact h
  · have h := (c8_chunking (List.replicate 2300 7)).2.2.2
      (by rw [List.length_replicate]; norm_num)
    rw [List.length_replicate] at h
    exact h.trans (by norm_num)
  · exact (c8_chunking (List.replicate 2000 7)).2.2.1
      (by rw [List.length_replicate])

/-- C9: Header packing. `pack_header` lays out padded_length, version,
total_plain_size and chunk_index as four little-endian signed 16-bit
integers into exactly 8 bytes; it fails (the model of `struct.error`) if
and only if some field does not fit a signed 16-bit integer; and
consequently encoding a firmware longer than 32767 bytes fails at header
packing, making the whole encoder return `none`. -/
theorem c9_pack_header (plen version total idx : Int) (fw : List Nat) (v : Int)
    (m key : List Nat) (nonces : Nat → List Nat) :
    (pack_header plen version total idx = none ↔
      ¬(fitsInt16 plen = true ∧ fitsInt16 version = true ∧ fitsInt16 total = true ∧
        fitsInt16 idx = true)) ∧
    (∀ md, pack_header plen version total idx = some md →
      md = int16LE plen ++ int16LE version ++ int16LE total ++ int16LE idx ∧
      md.length = 8) ∧
    (32767 < fw.length → protect_firmware fw v m key nonces = none) := by
  refine ⟨pack_header_none_iff plen version total idx, ?_, ?_⟩
  · intro md hmd
    obtain ⟨_, h⟩ := pack_header_some_cond hmd
    exact ⟨h, by rw [h]; simp [int16LE]⟩
  · intro hbig
    have hne : (splitChunks fw).length ≠ 0 := by
      rw [length_splitChunks]; omega
    obtain ⟨c, cs, hsplit⟩ : ∃ c cs, splitChunks fw = c :: cs := by
      cases hsp : splitChunks fw with
      | nil => rw [hsp] at hne; simp at hne
      | cons c cs => exact ⟨c, cs, rfl⟩
    have hpack0 : pack_header ((pad c 16).length : Int) v (fw.length : Int)
        ((0 : Nat) : Int) = none := by
      rw [pack_header_none_iff]
      intro hc
      have := (fitsInt16_ofNat fw.length).mp hc.2.2.1
      omega
    have hseal0 : sealChunk key (nonces 0) v fw.length ((0 : Nat) : Int) c = none := by
      unfold sealChunk
      simp only [BLOCK_SIZE]
      rw [hpack0]
    rw [protect_firmware, bundleRecords, hsplit]
    simp only [encodeChunks]
    rw [hseal0]
    rfl

theorem c9_pack_header_witness :
    pack_header 40000 0 0 0 = none ∧
    (∃ md, pack_header 16 4 2 0 = some md ∧ md.length = 8) ∧
    protect_firmware (List.replicate 32768 1) 0 [] [] (fun _ => []) = none := by
  refine ⟨?_, ?_, ?_⟩
  · exact (c9_pack_header 40000 0 0 0 [] 0 [] [] fun _ => []).1.mpr (by decide)
  · obtain ⟨md, hmd⟩ : ∃ md, pack_header 16 4 2 0 = some md := ⟨_, rfl⟩
    exact ⟨md, hmd, ((c9_pack_header 16 4 2 0 [] 0 [] [] fun _ => []).2.1 md hmd).2⟩
  · exact (c9_pack_header 0 0 0 0 (List.replicate 32768 1) 0 [] [] fun _ => []).2.2
      (by rw [List.length_replicate]; omega)

/-! ### Transfer-side lemmas -/

theorem waitU_shape : ∀ (input : List Nat) (t : List SerialEv) (rest : List Nat),
    waitU input = some (t, rest) →
    ∃ pre, input = pre ++ 85 :: rest ∧ (∀ b ∈ pre, b ≠ 85) ∧
      t = pre.map SerialEv.rd ++ [SerialEv.rd 85] := by
  intro input
  induction input with
  | nil => intro t rest h; simp [waitU] at h
  | cons b bs ih =>
    intro t rest h
    simp only [waitU] at h
    by_cases hb : b = 85
    · rw [if_pos hb] at h
      simp only [Option.some.injEq, Prod.mk.injEq] at h
      obtain ⟨ht, hr⟩ := h
      subst hb
      exact ⟨[], by simp [hr], by simp, by simp [← ht]⟩
    · rw [if_neg hb] at h
      cases hw : waitU bs with
      | none => rw [hw] at h; simp at h
      | some pr =>
        obtain ⟨t2, r2⟩ := pr
        rw [hw] at h
        simp only [Option.some.injEq, Prod.mk.injEq] at h
        obtain ⟨ht, hr⟩ := h
        obtain ⟨pre, hin, hpre, ht2⟩ := ih t2 r2 hw
        refine ⟨b :: pre, ?_, ?_, ?_⟩
        · simp [hin, hr]
        · intro x hx
          rcases List.mem_cons.mp hx with rfl | hx2
          · exact hb
          · exact hpre x hx2
        · simp [← ht, ht2]

theorem send_metadata_shape (metadata nonce tag : List Nat) (input : List Nat)
    (t : List SerialEv) (rest : List Nat)
    (h : send_metadata metadata nonce tag input = .ok (t, rest)) :
    ∃ pre : List Nat, (∀ b ∈ pre, b ≠ 85) ∧
      t = SerialEv.wr [85] :: (pre.map SerialEv.rd ++ [SerialEv.rd 85]) ++
        [SerialEv.wr metadata, SerialEv.wr nonce, SerialEv.wr tag, SerialEv.rd 0] := by
  rw [send_metadata] at h
  cases hw : waitU input with
  | none => rw [hw] at h; simp at h
  | some pr =>
    obtain ⟨tw, rest2⟩ := pr
    rw [hw] at h
    dsimp only at h
    cases rest2 with
    | nil => simp at h
    | cons r rest3 =>
      dsimp only at h
      by_cases hr : r = 0
      · rw [if_pos hr] at h
        simp only [Except.ok.injEq, Prod.mk.injEq] at h
        obtain ⟨ht, _⟩ := h
        obtain ⟨pre, _, hpre, htw⟩ := waitU_shape input tw (r :: rest3) hw
        subst hr
        refine ⟨pre, hpre, ?_⟩
        rw [← ht, htw]
      · rw [if_neg hr] at h
        simp at h

theorem frameEvs_append (a b : List SerialEv) (ha : FrameEvs a) (hb : FrameEvs b) :
    FrameEvs (a ++ b) := by
  induction ha with
  | nil => simpa using hb
  | pair f rest hrest ih => exact FrameEvs.pair f (rest ++ b) ih

theorem send_frame_frameEvs : ∀ (input : List Nat) (frame : List Nat) (ec : Nat)
    (t : List SerialEv) (ec2 : Nat) (rest : List Nat),
    send_frame frame ec input = .ok (t, ec2, rest) → FrameEvs t := by
  intro input
  induction input with
  | nil => intro frame ec t ec2 rest h; simp [send_frame] at h
  | cons r rs ih =>
    intro frame ec t ec2 rest h
    simp only [send_frame] at h
    by_cases hr : r ≠ 0
    · rw [if_pos hr] at h; simp at h
    · rw [if_neg hr] at h
      push_neg at hr
      subst hr
      rw [if_neg (by norm_num)] at h
      simp only [Except.ok.injEq, Prod.mk.injEq] at h
      obtain ⟨ht, _, _⟩ := h
      rw [← ht]
      exact FrameEvs.pair frame [] FrameEvs.nil

theorem frameLoopGo_frameEvs : ∀ (fs : List (List Nat)) (ec : Nat) (input : List Nat)
    (early : Bool) (t : List SerialEv) (rest : List Nat),
    frameLoopGo ec fs input = .ok (early, t, rest) → FrameEvs t := by
  intro fs
  induction fs with
  | nil =>
    intro ec input early t rest h
    simp only [frameLoopGo, Except.ok.injEq, Prod.mk.injEq] at h
    obtain ⟨_, ht, _⟩ := h
    rw [← ht]
    exact FrameEvs.nil
  | cons f fs ih =>
    intro ec input early t rest h
    simp only [frameLoopGo] at h
    by_cases hec : 10 < ec
    · rw [if_pos hec] at h
      simp only [Except.ok.injEq, Prod.mk.injEq] at h
      obtain ⟨_, ht, _⟩ := h
      rw [← ht]
      exact FrameEvs.nil
    · rw [if_neg hec] at h
      cases hsf : send_frame f ec input with
      | error e => rw [hsf] at h; simp at h
      | ok pr =>
        obtain ⟨t1, ec1, inp2⟩ := pr
        rw [hsf] at h
        dsimp only at h
        cases hgo : frameLoopGo ec fs inp2 with
        | error e => rw [hgo] at h; simp at h
        | ok pr2 =>
          obtain ⟨early2, t2, inp3⟩ := pr2
          rw [hgo] at h
          simp only [Except.ok.injEq, Prod.mk.injEq] at h
          obtain ⟨_, ht, _⟩ := h
          rw [← ht]
          exact frameEvs_append t1 t2 (send_frame_frameEvs input f ec t1 ec1 inp2 hsf)
            (ih ec inp2 early2 t2 inp3 hgo)

theorem protect_head (fw : List Nat) (version : Int) (m key : List Nat)
    (nonces : Nat → List Nat) (hfw : fw ≠ [])
    (hv : fitsInt16 version = true) (hl : fw.length ≤ 32767)
    (hm : (pad (m ++ [0]) 16).length ≤ 32767) (hnlen : ∀ n, (nonces n).length = 16) :
    ∃ (p : Nat) (X : List Nat), p ≤ 32767 ∧
      protect_firmware fw version m key nonces =
        some ((int16LE (p : Int) ++ int16LE version ++ int16LE (fw.length : Int) ++
          int16LE ((0 : Nat) : Int)) ++ X) := by
  obtain ⟨rs, S, hbundle, hrs, hS, _⟩ :=
    bundleRecords_sound fw version m key nonces hv hl hm hnlen
  have hne : (splitChunks fw).length ≠ 0 := by
    rw [length_splitChunks]
    have : fw.length ≠ 0 := fun h0 => hfw (List.length_eq_zero.mp h0)
    omega
  obtain ⟨c, cs, hsplit⟩ : ∃ c cs, splitChunks fw = c :: cs := by
    cases hsp : splitChunks fw with
    | nil => rw [hsp] at hne; simp at hne
    | cons c cs => exact ⟨c, cs, rfl⟩
  rw [hsplit] at hrs
  simp only [encodeChunks] at hrs
  cases hseal : sealChunk key (nonces 0) version fw.length ((0 : Nat) : Int) c with
  | none => rw [hseal] at hrs; simp at hrs
  | some R =>
    rw [hseal] at hrs
    cases henc : encodeChunks key nonces version fw.length (0 + 1) cs with
    | none => rw [henc] at hrs; simp at hrs
    | some rs' =>
      rw [henc] at hrs
      simp only [Option.some.injEq] at hrs
      obtain ⟨hmd, _, _, _, hp16, _, _, _⟩ := sealChunk_some hseal
      refine ⟨(pad c 16).length,
        R.nonce ++ (R.tag ++ (R.ciphertext ++ ((rs' ++ [S]).map recBytes).flatten)),
        hp16, ?_⟩
      rw [protect_firmware, hbundle, ← hrs]
      have h1 : (((R :: rs') ++ [S]).map recBytes).flatten =
          recBytes R ++ ((rs' ++ [S]).map recBytes).flatten := by
        simp
      have h2 : recBytes R ++ ((rs' ++ [S]).map recBytes).flatten =
          R.metadata ++ (R.nonce ++ (R.tag ++ (R.ciphertext ++
            ((rs' ++ [S]).map recBytes).flatten))) := by
        simp [recBytes, List.append_assoc]
      rw [Option.map_some']
      rw [h1, h2, hmd]

/-- C3: The frame-phase retry the claim describes is dead code in the
source. `send_frame` raises `RuntimeError` whenever the response differs
from `0x00`, and this check precedes the `resp == RESP_ERR` branch that
would increment the error counter and resend; consequently a transport that
answers `0x01` three times and then `0x00` makes the transfer abort with
`RuntimeError` at the very first `0x01` — no resend, no counter increment,
no successful delivery — and the always-`0x01` transport aborts the same
way at the first response rather than after an 11th consecutive rejection. -/
theorem c3_frame_retry_dead :
    send_frame [1, 2, 3] 0 [1, 1, 1, 0] = .error .runtimeError ∧
    send_frame [1, 2, 3] 0 (List.replicate 11 1) = .error .runtimeError ∧
    frameLoopGo 0 [[1, 2, 3]] [1, 1, 1, 0] = .error .runtimeError :=
  ⟨rfl, rfl, rfl⟩

/-- C5: Implicit division-by-zero. The `num_chunks` division in the
transfer tool is unguarded and its divisor is the 16-bit value at bytes
6..8 of the bundle, which in every bundle the encoder produces with at
least one firmware chunk is the first chunk's chunk_index field and
therefore 0; hence `main` fails at the `num_chunks` division
(`ZeroDivisionError`) on every such bundle, for every response stream,
before writing any byte to the serial channel (in the model, the error is
produced before the chunk loop that performs all writes is entered). -/
theorem c5_division_by_zero (fw : List Nat) (version : Int) (m key : List Nat)
    (nonces : Nat → List Nat) (hfw : fw ≠ [])
    (hv : fitsInt16 version = true) (hl : fw.length ≤ 32767)
    (hm : (pad (m ++ [0]) 16).length ≤ 32767) (hnlen : ∀ n, (nonces n).length = 16) :
    ∃ blob, protect_firmware fw version m key nonces = some blob ∧
      mainChunkSize blob = 0 ∧ mainNumChunks blob = none ∧
      ∀ input, mainRun blob input = .error .zeroDivision := by
  obtain ⟨p, X, hp, hblob⟩ := protect_head fw version m key nonces hfw hv hl hm hnlen
  have h6 : mainChunkSize ((int16LE (p : Int) ++ int16LE version ++
      int16LE (fw.length : Int) ++ int16LE ((0 : Nat) : Int)) ++ X) = 0 := by
    rw [mainChunkSize]
    exact mdT_field6_u16 _ _ _ 0 (by omega) X
  refine ⟨_, hblob, h6, ?_, ?_⟩
  · rw [mainNumChunks, if_pos h6]
  · intro input
    rw [mainRun, if_pos h6]

theorem c5_division_by_zero_witness :
    ∃ blob, protect_firmware [65, 66] 7 [104] [] (fun _ => List.replicate 16 0) =
        some blob ∧
      mainChunkSize blob = 0 ∧ mainNumChunks blob = none ∧
      ∀ input, mainRun blob input = .error .zeroDivision :=
  c5_division_by_zero [65, 66] 7 [104] [] (fun _ => List.replicate 16 0) (by decide)
    (by decide) (by decide) (by decide) (fun n => by simp)

/-- C4 counterexample: the claim says the transfer tool's dividend is the
bundle's `total_plain_size` header field. On the bundle encoded from the
2-byte firmware `[65, 66]` with version 7, the value the tool actually
reads as its dividend (`mainFwSize`, bytes 2..4) is 7 — the version field —
while the `total_plain_size` field (bytes 4..6) holds 2, and the
`num_chunks` division does not produce `total_plain_size / chunk_payload`
or any other quotient: it fails with a division by zero. -/
theorem c4_counterexample :
    (protect_firmware [65, 66] 7 [104] [1] (fun _ => List.replicate 16 0)).map
        (fun b => (mainFwSize b, readU16LE b 4, mainNumChunks b)) =
      some (7, 2, none) ∧ (7 : Nat) ≠ 2 :=
  ⟨rfl, by decide⟩

/-- C4 amended: the transfer tool computes `num_chunks` by dividing the
16-bit value at bytes 2..4 of the bundle — which in every encoder-produced
bundle is the `version` field, not `total_plain_size` — by the 16-bit value
at bytes 6..8 — the first chunk's `chunk_index` field, 0 in every
encoder-produced bundle with a firmware chunk, so the division raises
`ZeroDivisionError` instead of producing a chunk count — and it locates
each chunk's ciphertext payload at the fixed stride `1064 * packet_index +
40` past the 40-byte chunk-header region. -/
theorem c4_rederivation_amended (fw : List Nat) (version : Nat) (m key : List Nat)
    (nonces : Nat → List Nat) (hfw : fw ≠ [])
    (hv : version ≤ 32767) (hl : fw.length ≤ 32767)
    (hm : (pad (m ++ [0]) 16).length ≤ 32767) (hnlen : ∀ n, (nonces n).length = 16) :
    ∃ blob, protect_firmware fw (version : Int) m key nonces = some blob ∧
      mainFwSize blob = version ∧
      readU16LE blob 4 = fw.length ∧
      mainChunkSize blob = 0 ∧
      mainNumChunks blob = none ∧
      (∀ pidx : Nat, mainFwStart pidx = 1064 * pidx + 40) := by
  obtain ⟨p, X, hp, hblob⟩ := protect_head fw (version : Int) m key nonces hfw
    ((fitsInt16_ofNat version).mpr hv) hl hm hnlen
  have h2 : mainFwSize ((int16LE (p : Int) ++ int16LE (version : Int) ++
      int16LE (fw.length : Int) ++ int16LE ((0 : Nat) : Int)) ++ X) = version := by
    rw [mainFwSize]
    exact mdT_field2_u16 _ version _ _ (by omega) X
  have h4 : readU16LE ((int16LE (p : Int) ++ int16LE (version : Int) ++
      int16LE (fw.length : Int) ++ int16LE ((0 : Nat) : Int)) ++ X) 4 = fw.length := by
    exact mdT_field4_u16 _ _ fw.length _ (by omega) X
  have h6 : mainChunkSize ((int16LE (p : Int) ++ int16LE (version : Int) ++
      int16LE (fw.length : Int) ++ int16LE ((0 : Nat) : Int)) ++ X) = 0 := by
    rw [mainChunkSize]
    exact mdT_field6_u16 _ _ _ 0 (by omega) X
  refine ⟨_, hblob, h2, h4, h6, ?_, fun pidx => rfl⟩
  rw [mainNumChunks, if_pos h6]

theorem c4_rederivation_amended_witness :
    ∃ blob, protect_firmware [65, 66] ((7 : Nat) : Int) [104] [1]
        (fun _ => List.replicate 16 0) = some blob ∧
      mainFwSize blob = 7 ∧ readU16LE blob 4 = 2 ∧ mainChunkSize blob = 0 ∧
      mainNumChunks blob = none ∧ (∀ pidx : Nat, mainFwStart pidx = 1064 * pidx + 40) := by
  have h := c4_rederivation_amended [65, 66] 7 [104] [1] (fun _ => List.replicate 16 0)
    (by decide) (by decide) (by decide) (by decide) (fun n => by simp)
  simpa using h

/-- C6: Bundle invariant. For every firmware input, version, message and
key (with the inputs in the encoder's representable range), every chunk
record in the bundle produced by the encoder carries the same version and
the same total_plain_size (the original firmware length) in its packed
header; the firmware chunks appear in increasing chunk_index order with
indices exactly 0..N-1 and no gaps; and exactly one chunk — the last record
of the bundle — has chunk_index = -1. -/
theorem c6_bundle_invariant (fw : List Nat) (version : Int) (m key : List Nat)
    (nonces : Nat → List Nat)
    (hv : fitsInt16 version = true) (hl : fw.length ≤ 32767)
    (hm : (pad (m ++ [0]) 16).length ≤ 32767) (hnlen : ∀ n, (nonces n).length = 16) :
    ∃ rs, bundleRecords fw version m key nonces = some rs ∧
      (∀ r ∈ rs, readInt16LE r.metadata 2 = version ∧
        readInt16LE r.metadata 4 = (fw.length : Int)) ∧
      rs.dropLast.map (fun r => readInt16LE r.metadata 6) =
        (List.range rs.dropLast.length).map Int.ofNat ∧
      rs.getLast?.map (fun r => readInt16LE r.metadata 6) = some (-1) ∧
      (rs.filter fun r => decide (readInt16LE r.metadata 6 = -1)).length = 1 := by
  obtain ⟨rs', S, hbundle, hrs, hS, _⟩ :=
    bundleRecords_sound fw version m key nonces hv hl hm hnlen
  obtain ⟨hlen, hfields, hmap⟩ :=
    encodeChunks_meta key nonces version fw.length (splitChunks fw) 0 rs' hrs
  obtain ⟨hmdS, _, _, _, hpS, _, _, _⟩ := sealChunk_some hS
  have hvr := (fitsInt16_true_iff version).mp hv
  have hS2 : readInt16LE S.metadata 2 = version := by
    rw [hmdS]; exact md_field2 _ _ _ _ hvr.1 hvr.2
  have hS4 : readInt16LE S.metadata 4 = (fw.length : Int) := by
    rw [hmdS]
    apply md_field4 <;> omega
  have hS6 : readInt16LE S.metadata 6 = -1 := by
    rw [hmdS]
    apply md_field6 <;> omega
  have hmem6 : ∀ r ∈ rs', ∃ k : Nat, readInt16LE r.metadata 6 = Int.ofNat k := by
    intro r hr
    have hmem := List.mem_map_of_mem (fun r => readInt16LE r.metadata 6) hr
    rw [hmap] at hmem
    obtain ⟨k, _, hk⟩ := List.mem_map.mp hmem
    exact ⟨k, hk.symm⟩
  refine ⟨rs' ++ [S], hbundle, ?_, ?_, ?_, ?_⟩
  · intro r hr
    rcases List.mem_append.mp hr with hr2 | hr2
    · exact ⟨((hfields r hr2).2.1), ((hfields r hr2).2.2)⟩
    · rw [List.mem_singleton.mp hr2]
      exact ⟨hS2, hS4⟩
  · rw [List.dropLast_concat, hmap, hlen, List.range_eq_range']
  · rw [List.getLast?_concat, Option.map_some', hS6]
  · rw [List.filter_append]
    have hnil : rs'.filter (fun r => decide (readInt16LE r.metadata 6 = -1)) = [] := by
      rw [List.filter_eq_nil_iff]
      intro r hr
      obtain ⟨k, hk⟩ := hmem6 r hr
      simp only [hk, decide_eq_true_eq]
      show ¬((k : Int) = -1)
      omega
    have hone : List.filter (fun r => decide (readInt16LE r.metadata 6 = -1)) [S] = [S] := by
      simp [List.filter, hS6]
    rw [hnil, hone]
    rfl

theorem c6_bundle_invariant_witness :
    ∃ rs, bundleRecords [65, 66] 7 [104] [1] (fun _ => List.replicate 16 0) = some rs ∧
      (∀ r ∈ rs, readInt16LE r.metadata 2 = 7 ∧ readInt16LE r.metadata 4 = 2) ∧
      rs.dropLast.map (fun r => readInt16LE r.metadata 6) =
        (List.range rs.dropLast.length).map Int.ofNat ∧
      rs.getLast?.map (fun r => readInt16LE r.metadata 6) = some (-1) ∧
      (rs.filter fun r => decide (readInt16LE r.metadata 6 = -1)).length = 1 := by
  have h := c6_bundle_invariant [65, 66] 7 [104] [1] (fun _ => List.replicate 16 0)
    (by decide) (by decide) (by decide) (fun n => by simp)
  simpa using h

/-- C10: Handshake once per chunk. In the transfer tool's chunk loop, every
chunk's 8-byte metadata write is immediately preceded by a complete
handshake exchange — the write of the sentinel byte `'U'` and blocking
reads until the peer echoes `'U'` — because the handshake is embedded in
`send_metadata`, which `main` invokes for every chunk. Formally, every
successful trace of the chunk loop decomposes into per-chunk segments, each
of which starts with the `'U'` write, reads of non-`'U'` bytes, the read of
the echoed `'U'`, and then immediately the metadata write (followed by the
nonce and tag writes, the acknowledgement read, and the chunk's frame
write/ack pairs). -/
theorem c10_handshake_per_chunk (blob : List Nat) :
    ∀ (k i cs : Nat) (input : List Nat) (early : Bool) (t : List SerialEv)
      (csOut : Nat) (inpOut : List Nat),
      mainChunkLoop blob k i cs input = .ok (early, t, csOut, inpOut) →
      HandshakeLedMeta t := by
  intro k
  induction k with
  | zero =>
    intro i cs input early t csOut inpOut h
    simp only [mainChunkLoop, Except.ok.injEq, Prod.mk.injEq] at h
    obtain ⟨_, ht, _⟩ := h
    rw [← ht]
    exact HandshakeLedMeta.nil
  | succ n ih =>
    intro i cs input early t csOut inpOut h
    simp only [mainChunkLoop] at h
    cases hsm : send_metadata ((blob.drop (i * cs)).take 8)
        ((blob.drop (i * cs + 8)).take 16) ((blob.drop (i * cs + 24)).take 16) input with
    | error e => rw [hsm] at h; simp at h
    | ok pr =>
      obtain ⟨t1, inp1⟩ := pr
      rw [hsm] at h
      dsimp only at h
      cases hfl : frameLoopGo 0 (frameSlices ((blob.drop (mainFwStart (readU16LE blob
          (i * readU16LE blob (i * cs + 6) + 4)))).take (readU16LE blob (i * cs + 6))))
          inp1 with
      | error e => rw [hfl] at h; simp at h
      | ok pr2 =>
        obtain ⟨early2, t2, inp2⟩ := pr2
        rw [hfl] at h
        obtain ⟨pre, hpre, ht1⟩ := send_metadata_shape _ _ _ _ _ _ hsm
        have hframe := frameLoopGo_frameEvs _ _ _ _ _ _ hfl
        cases early2 with
        | true =>
          dsimp only at h
          simp only [Except.ok.injEq, Prod.mk.injEq] at h
          obtain ⟨_, ht, _⟩ := h
          rw [← ht, ht1]
          have hseg := HandshakeLedMeta.seg pre ((blob.drop (i * cs)).take 8)
            ((blob.drop (i * cs + 8)).take 16) ((blob.drop (i * cs + 24)).take 16)
            t2 [] hpre hframe HandshakeLedMeta.nil
          simpa [List.append_assoc] using hseg
        | false =>
          dsimp only at h
          cases hrec : mainChunkLoop blob n (i + 1) (readU16LE blob (i * cs + 6)) inp2 with
          | error e => rw [hrec] at h; simp at h
          | ok pr3 =>
            obtain ⟨early3, t3, cs3, inp3⟩ := pr3
            rw [hrec] at h
            simp only [Except.ok.injEq, Prod.mk.injEq] at h
            obtain ⟨_, ht, _⟩ := h
            rw [← ht, ht1]
            have hrest := ih (i + 1) (readU16LE blob (i * cs + 6)) inp2 early3 t3 cs3
              inp3 hrec
            have hseg := HandshakeLedMeta.seg pre ((blob.drop (i * cs)).take 8)
              ((blob.drop (i * cs + 8)).take 16) ((blob.drop (i * cs + 24)).take 16)
              t2 t3 hpre hframe hrest
            simpa [List.append_assoc] using hseg

theorem c10_handshake_per_chunk_witness :
    ∃ t : List SerialEv, mainChunkLoop (List.replicate 48 0) 1 0 0 [85, 0] =
        .ok (false, t, 0, []) ∧ HandshakeLedMeta t := by
  refine ⟨_, rfl, ?_⟩
  exact c10_handshake_per_chunk (List.replicate 48 0) 1 0 0 [85, 0] false _ 0 [] rfl
